import Mathlib

/-!
Verification of the drag-and-drop plugin list sorter
(`Sorter` in `src/extensions/xml-tag-creator.js`, the "Rearrange Plugins"
extension).  The JavaScript is shallowly embedded: DOM rows become values of
a `Row` structure, the list's children become a `List Node` (rows
interleaved with the drop placeholder), `localStorage` under the order key
becomes an `Option Stored`, and each event handler becomes a pure state
transformer.  JavaScript exceptions (`JSON.parse` on corrupt data,
property access on `null`, calling `forEach` on a non-array) are modelled
with `Except`.
-/

/-- Inline styles that `Sorter.#down` sets on the dragged row and
`Sorter.#up` clears.  `none` models "not set / set to the empty string"
(both mean the inline declaration is absent).  Numeric pixel values are
kept as integers. -/
structure Style where
  position : Option String := none
  left : Option Int := none
  top : Option Int := none
  width : Option Int := none
  pointerEvents : Option String := none
  zIndex : Option Int := none
deriving DecidableEq, Repr

/-- One list row (a `[role="menuitem"]` element).  `id` is DOM node
identity (distinct for distinct nodes).  `name` is the trimmed
`textContent` of the row's `.truncate` descendant, `none` when that
descendant is absent.  `left`/`top`/`width`/`height` are the row's current
`getBoundingClientRect` readings.  `hasHandle` is the `data-has-handle`
idempotency flag, `handleCount` counts handle elements inside the row's
wrap, `hasWrap` records whether the wrap element
(`.flex.items-center.justify-center.gap-2.truncate`) exists, and
`dragging` is the `tm-plugin-reorder-dragging` class. -/
structure Row where
  id : Nat
  name : Option String := none
  left : Int := 0
  top : Int := 0
  width : Int := 0
  height : Int := 0
  style : Style := {}
  dragging : Bool := false
  hasHandle : Bool := false
  handleCount : Nat := 0
  hasWrap : Bool := true
deriving DecidableEq, Repr

/-- The row's bottom bound, as `getBoundingClientRect().bottom`. -/
def Row.bottom (r : Row) : Int := r.top + r.height

/-- A child of the list container: either a row or the drop placeholder
(`div.tm-plugin-reorder-placeholder`; it has no `[role="menuitem"]`, so
row queries skip it). -/
inductive Node where
  | row (r : Row)
  | ph
deriving DecidableEq, Repr

/-- Whether a child is the placeholder. -/
def Node.isPh : Node → Bool
  | Node.ph => true
  | Node.row _ => false

/-- The rows of a child list in DOM order, as
`list.querySelectorAll('[role="menuitem"]')` returns them. -/
def rowsOf : List Node → List Row
  | [] => []
  | Node.row r :: rest => r :: rowsOf rest
  | Node.ph :: rest => rowsOf rest

/-- Number of placeholder elements among the children. -/
def phCount (l : List Node) : Nat := (l.filter Node.isPh).length

/-- A JSON value, the result of `JSON.parse`.  `obj` stands for a plain
JSON object; such an object is modelled without properties (in particular
without an own `length` entry, the only property the sorter ever reads
from a parsed value). -/
inductive Json where
  | null
  | bool (b : Bool)
  | num (n : Int)
  | str (s : String)
  | arr (xs : List Json)
  | obj
deriving Repr

/-- JavaScript exceptions the storage path can raise: `parseError` is the
`SyntaxError` thrown by `JSON.parse` on corrupt input, `typeError` covers
reading `.length` of `null` and calling `forEach` on a non-array. -/
inductive JsError where
  | parseError
  | typeError
deriving DecidableEq, Repr

/-- The raw content of `localStorage` under the order key, abstracted by
what `JSON.parse` does with it: either it is not valid JSON (`corrupt`)
or it parses to a JSON value.  A missing key is `Option.none` outside. -/
inductive Stored where
  | corrupt
  | json (j : Json)
deriving Repr

/-- `Store.get`: `JSON.parse(localStorage.getItem(this.key) || '[]')`.
A missing key gives `null`, `null || '[]'` is `'[]'`, which parses to the
empty array; a present corrupt value makes `JSON.parse` throw. -/
def Store.get : Option Stored → Except JsError Json
  | none => Except.ok (Json.arr [])
  | some Stored.corrupt => Except.error JsError.parseError
  | some (Stored.json j) => Except.ok j

/-- Truthiness of `saved.length` as evaluated by `if(!saved.length)`:
reading `.length` of `null` throws a TypeError; arrays and strings have a
numeric length (truthy iff nonzero); numbers, booleans and plain objects
yield `undefined`, which is falsy. -/
def jsLen : Json → Except JsError Bool
  | Json.null => Except.error JsError.typeError
  | Json.arr xs => Except.ok (!xs.isEmpty)
  | Json.str s => Except.ok (!(s == ""))
  | _ => Except.ok false

/-- The display name a row contributes, as
`r.querySelector('.truncate')?.textContent.trim()` filtered for
truthiness: `none` when the `.truncate` descendant is absent or its
trimmed text is empty (the empty string is falsy, so both
`if(n) map.set(n,r)` in `#applySaved` and `.filter(Boolean)` in `#save`
drop it). -/
def goodName (r : Row) : Option String :=
  match r.name with
  | none => none
  | some s => if s = "" then none else some s

/-- `map.get(n)` for the name map built in `#applySaved`: `Map.set` is
last-write-wins, so the lookup returns the last row whose (truthy)
display name equals `s`. -/
def mapGet (rows : List Row) (s : String) : Option Row :=
  (rows.filter (fun r => goodName r == some s)).getLast?

/-- `list.appendChild(el)` for an element already in the list: the node is
removed from its current position and appended at the end.  Nodes are
identified by `id`; with distinct ids this removes exactly the one
occurrence. -/
def jsAppendChild (cur : List Row) (el : Row) : List Row :=
  cur.filter (fun r => el.id != r.id) ++ [el]

/-- One step of the `saved.forEach` loop of `#applySaved`: a saved entry
that is a string and hits the name map moves that row to the end of the
current child list; any other entry does nothing.  Non-string entries
miss the string-keyed map (SameValueZero). -/
def applyStep (rows : List Row) (cur : List Row) (n : Json) : List Row :=
  match n with
  | Json.str s =>
      match mapGet rows s with
      | some el => jsAppendChild cur el
      | none => cur
  | _ => cur

/-- The `saved.forEach` loop with an explicit accumulator: the name map
is built once from the original rows (`rows`), the moves act on the
current list (`cur`). -/
def applyNamesAux (rows : List Row) (cur : List Row) (names : List Json) :
    List Row :=
  names.foldl (applyStep rows) cur

/-- The `saved.forEach(n=>{ const el=map.get(n); if(el) list.appendChild(el); })`
loop of `#applySaved`, starting from the list's current rows. -/
def applyNames (rows : List Row) (names : List Json) : List Row :=
  applyNamesAux rows rows names

/-- `Sorter.#applySaved(list)`: read the store (may throw on corrupt
JSON), return early when `!saved.length` (which itself throws on `null`),
run the move loop when the value is an array, and throw a TypeError when
`forEach` is called on a non-array with a truthy length (a non-empty
string).  The result is the list's rows in their new DOM order. -/
def applySaved (stored : Option Stored) (rows : List Row) :
    Except JsError (List Row) := do
  let saved ← Store.get stored
  let t ← jsLen saved
  if t = false then return rows
  match saved with
  | Json.arr names => return applyNames rows names
  | _ => Except.error JsError.typeError

/-- `Sorter.#save(list)`: rows in DOM order, each mapped to its display
name, falsy names dropped. -/
def saveOrder (rows : List Row) : List String :=
  rows.filterMap goodName

/-- The value `#save` writes to the store: the JSON encoding of the name
sequence (`JSON.stringify` of an array of strings always yields valid
JSON parsing back to the same array). -/
def savedValue (names : List String) : Option Stored :=
  some (Stored.json (Json.arr (names.map Json.str)))

/-- The rows moved to the end by `#applySaved`, in saved order: each saved
entry that is a string with a matching row contributes that row. -/
def movedRows (rows : List Row) (names : List Json) : List Row :=
  names.filterMap
    (fun n =>
      match n with
      | Json.str s => mapGet rows s
      | _ => none)

deriving instance DecidableEq for Except

/-- Pointer-event coordinates (`e.clientX`, `e.clientY`). -/
structure Ptr where
  x : Int
  y : Int
deriving DecidableEq, Repr

/-- The `this.drag` session object built by `Sorter.#down`: the dragged
row (by node identity), the grab offsets, and the auto-scroll edge
margin (`CONFIG.DRAG.edgeDistance`). -/
structure DragInfo where
  rowId : Nat
  offX : Int
  offY : Int
  edge : Int
deriving DecidableEq, Repr

/-- The list container's `getBoundingClientRect` readings used by the
auto-scroll check in `#move`. -/
structure Geom where
  listTop : Int
  listBottom : Int
deriving DecidableEq, Repr

/-- The mutable state the drag handlers touch: the list's children (rows
and placeholder), the container's `scrollTop`, the order key's stored
value, whether the global `document.onpointermove`/`onpointerup` pair is
installed, and the current drag session (`none` models the empty
`this.drag = {}`). -/
structure WState where
  children : List Node
  scrollTop : Int
  stored : Option Stored
  handlers : Bool
  drag : Option DragInfo
deriving Repr

/-- First row with the given node identity
(the handler closures capture the row node itself; we recover it by id). -/
def getRow (l : List Node) (rid : Nat) : Option Row :=
  (rowsOf l).find? (fun r => r.id == rid)

/-- Whether some row with the given identity is among the children. -/
def hasRowId (l : List Node) (rid : Nat) : Bool :=
  (rowsOf l).any (fun r => r.id == rid)

/-- Drop every placeholder (`ph.remove()` side of a DOM move: `before`
and `after` first detach the placeholder from its parent). -/
def removePh (l : List Node) : List Node :=
  l.filter (fun n => !n.isPh)

/-- `item.before(ph)`: insert the placeholder immediately before the
first row with the given identity; when no such row exists nothing is
inserted (the DOM target always exists at the call sites). -/
def insertPhBefore : List Node → Nat → List Node
  | [], _ => []
  | Node.ph :: rest, rid => Node.ph :: insertPhBefore rest rid
  | Node.row r :: rest, rid =>
      if r.id = rid then Node.ph :: Node.row r :: rest
      else Node.row r :: insertPhBefore rest rid

/-- `item.after(ph)`: insert the placeholder immediately after the first
row with the given identity. -/
def insertPhAfter : List Node → Nat → List Node
  | [], _ => []
  | Node.ph :: rest, rid => Node.ph :: insertPhAfter rest rid
  | Node.row r :: rest, rid =>
      if r.id = rid then Node.row r :: Node.ph :: rest
      else Node.row r :: insertPhAfter rest rid

/-- Replace the row node carrying the given identity with an updated row
value (mutating a captured node updates it in place in the child list). -/
def updateRow (l : List Node) (rid : Nat) (r' : Row) : List Node :=
  l.map (fun n =>
    match n with
    | Node.row r => if r.id = rid then Node.row r' else Node.row r
    | Node.ph => Node.ph)

/-- The rows `#move` scans for placeholder placement:
`[...list.querySelectorAll(row)].filter(i=>i!==row)`, i.e. all rows except
the dragged one. -/
def candidates (d : DragInfo) (l : List Node) : List Row :=
  (rowsOf l).filter (fun r => r.id != d.rowId)

/-- The `.some(...)` scan of `#move`: the first non-dragged row whose
vertical bounds strictly contain the pointer's Y coordinate. -/
def findCandidate (d : DragInfo) (e : Ptr) (l : List Node) : Option Row :=
  (candidates d l).find?
    (fun r => decide (r.top < e.y) && decide (e.y < r.bottom))

/-- The inline-style update `#move` applies to the dragged row:
`row.style.left = e.clientX-offX; row.style.top = e.clientY-offY`
(identity on every other row). -/
def dragStyled (d : DragInfo) (e : Ptr) (r : Row) : Row :=
  if r.id = d.rowId then
    { r with style :=
        { r.style with left := some (e.x - d.offX),
                       top := some (e.y - d.offY) } }
  else r

/-- The child list after the dragged row's node has been restyled in
place. -/
def styleChildren (d : DragInfo) (e : Ptr) (l : List Node) : List Node :=
  l.map (fun n =>
    match n with
    | Node.row r => Node.row (dragStyled d e r)
    | Node.ph => Node.ph)

/-- The placeholder move of `#move` given the result of the candidate
scan: with a containing candidate the placeholder is detached and
re-inserted immediately before it when the pointer is in the candidate's
upper half (`e.clientY < ir.top + ir.height/2`, for integer coordinates
exactly `2*e.y < 2*ir.top + ir.height`), immediately after it otherwise;
with no candidate the children are untouched. -/
def placePh (l : List Node) (oc : Option Row) (e : Ptr) : List Node :=
  match oc with
  | some c =>
      if 2 * e.y < 2 * c.top + c.height then
        insertPhBefore (removePh l) c.id
      else
        insertPhAfter (removePh l) c.id
  | none => l

/-- `Sorter.#move(e)`.  Reads the session from `this.drag` (the handler
is only installed while a session exists).  In order: the dragged row's
inline `left`/`top` follow the pointer minus the grab offset; the
container auto-scrolls by the edge margin when the pointer is above
`top + edge` or below `bottom - edge` (an `else if`, so the top check
wins); then the placeholder moves next to the first candidate row whose
vertical bounds contain the pointer, and stays put when there is none. -/
def moveHandler (g : Geom) (e : Ptr) (s : WState) : WState :=
  match s.drag with
  | none => s
  | some d =>
      let ch1 := styleChildren d e s.children
      let st1 :=
        if e.y < g.listTop + d.edge then s.scrollTop - d.edge
        else if g.listBottom - d.edge < e.y then s.scrollTop + d.edge
        else s.scrollTop
      { s with children := placePh ch1 (findCandidate d e ch1) e,
               scrollTop := st1 }

/-- `Sorter.#down(e,row)`.  Inserts a fresh placeholder before the row
(`row.before(ph)`; the placeholder's height style is visual only and not
modelled), switches the row to fixed positioning overlaying its current
rectangle with `zIndex` 999 and pointer events disabled, adds the
dragging class, records the session with the grab offsets and the
configured edge margin of 40, and installs the global move/up handlers.
`e.preventDefault()` has no counterpart in the model. -/
def downHandler (e : Ptr) (rid : Nat) (s : WState) : WState :=
  match getRow s.children rid with
  | none => s
  | some row =>
      let row' :=
        { row with
            dragging := true,
            style :=
              { row.style with
                  width := some row.width,
                  position := some "fixed",
                  zIndex := some 999,
                  left := some row.left,
                  top := some row.top,
                  pointerEvents := some "none" } }
      { s with
          children := updateRow (insertPhBefore s.children rid) rid row',
          drag := some
            { rowId := rid, offX := e.x - row.left, offY := e.y - row.top,
              edge := 40 },
          handlers := true }

/-- Clearing done by `Sorter.#up`: the dragging class is removed and the
inline `position`, `left`, `top`, `width` and `pointerEvents` styles are
reset to the empty string.  The `zIndex` set by `#down` is not touched. -/
def clearDrag (r : Row) : Row :=
  { r with
      dragging := false,
      style :=
        { r.style with
            position := none, left := none, top := none, width := none,
            pointerEvents := none } }

/-- Detach the row with the given node identity from the child list (the
removal half of `ph.replaceWith(row)` when the row is still a child). -/
def removeRowId (l : List Node) (rid : Nat) : List Node :=
  l.filter (fun n =>
    match n with
    | Node.row r => r.id != rid
    | Node.ph => true)

/-- Substitute the placeholder by the given row (the insertion half of
`ph.replaceWith(row)`). -/
def replacePh (l : List Node) (r : Row) : List Node :=
  l.map (fun n => if n.isPh then Node.row r else n)

/-- Whether the child list contains no placeholder. -/
def phFree (l : List Node) : Bool :=
  l.all (fun n => !n.isPh)

/-- `Sorter.#up()`.  `ph.replaceWith(row)` detaches the dragged row from
its old position and puts it where the placeholder stood; the class and
inline styles are then cleared (modelled by inserting the already-cleared
row, which yields the same final state), `#save(list)` persists the rows'
names top-to-bottom, and the global handlers and the session are
dropped. -/
def upHandler (s : WState) : WState :=
  match s.drag with
  | none => s
  | some d =>
      match getRow s.children d.rowId with
      | none => s
      | some row =>
          let ch := replacePh (removeRowId s.children d.rowId) (clearDrag row)
          { s with
              children := ch,
              stored := savedValue (saveOrder (rowsOf ch)),
              handlers := false,
              drag := none }

/-- `Sorter.#grip(row)`: already-flagged rows are skipped; otherwise the
flag is set and one handle element is prepended into the row's wrap when
the wrap exists (`row.querySelector(wrap)?.prepend(h)` does nothing when
the wrap is absent, though the flag is still set). -/
def grip (r : Row) : Row :=
  if r.hasHandle then r
  else
    { r with
        hasHandle := true,
        handleCount := if r.hasWrap then r.handleCount + 1 else r.handleCount }

/-- The per-list attachment state seen by the mutation observer: the
`data-sort-attach` idempotency flag, the rows, and an instrumentation
counter of how many times `#applySaved` ran against this list. -/
structure ListState where
  sortAttach : Bool
  rows : List Row
  applyCount : Nat
deriving Repr

/-- One observation of the list by `Sorter.#watch`/`#init`: an
already-flagged list is left alone; otherwise the flag is set,
`#applySaved` reorders the rows (its storage exceptions propagate out of
the observer callback), and every row is gripped. -/
def observe (stored : Option Stored) (s : ListState) :
    Except JsError ListState :=
  if s.sortAttach then Except.ok s
  else do
    let rows' ← applySaved stored s.rows
    return { sortAttach := true, rows := rows'.map grip,
             applyCount := s.applyCount + 1 }

/-- The string entries of a saved JSON array, in order (the only entries
that can hit the string-keyed name map). -/
def strNames : List Json → List String :=
  List.filterMap (fun n =>
    match n with
    | Json.str s => some s
    | _ => none)

/-- Stored values the restore path tolerates by doing nothing: a missing
key; valid JSON with an absent or zero `length` (numbers, booleans,
plain objects, the empty array, the empty string); or a JSON array none
of whose entries hits the current list's name map.  Corrupt values and
JSON `null` are excluded (they raise), as are non-empty strings
(`forEach` is missing) and arrays with a matching name (rows move). -/
def storeTolerated (stored : Option Stored) (rows : List Row) : Bool :=
  match stored with
  | none => true
  | some Stored.corrupt => false
  | some (Stored.json j) =>
      match j with
      | Json.null => false
      | Json.str s => s == ""
      | Json.arr xs =>
          xs.all (fun x =>
            match x with
            | Json.str s => (mapGet rows s).isNone
            | _ => true)
      | _ => true

/-- Whether a child is the row with the given node identity. -/
def isRowId (n : Node) (rid : Nat) : Bool :=
  match n with
  | Node.row r => r.id == rid
  | Node.ph => false

/-- Position of the placeholder among the children (index of the first
placeholder node), `none` when there is none. -/
def phIndex : List Node → Option Nat
  | [] => none
  | Node.ph :: _ => some 0
  | Node.row _ :: rest => (phIndex rest).map (· + 1)

/-- All adjacent pairs of a child list, in order. -/
def adjPairs : List Node → List (Node × Node)
  | a :: b :: rest => (a, b) :: adjPairs (b :: rest)
  | _ => []

/-- Whether the placeholder stands immediately before the row with the
given identity. -/
def phJustBefore (l : List Node) (rid : Nat) : Bool :=
  (adjPairs l).any (fun p => p.1.isPh && isRowId p.2 rid)

/-- Whether the placeholder stands immediately after the row with the
given identity. -/
def phJustAfter (l : List Node) (rid : Nat) : Bool :=
  (adjPairs l).any (fun p => isRowId p.1 rid && p.2.isPh)

-- sanity checks on concrete inputs
example :
    applySaved (savedValue ["C", "A", "B"])
      [{id := 0, name := some "A"}, {id := 1, name := some "B"},
       {id := 2, name := some "C"}] =
    Except.ok
      [{id := 2, name := some "C"}, {id := 0, name := some "A"},
       {id := 1, name := some "B"}] := by decide

example :
    applySaved (savedValue ["X", "A"])
      [{id := 0, name := some "A"}, {id := 1, name := some "B"}] =
    Except.ok
      [{id := 1, name := some "B"}, {id := 0, name := some "A"}] := by decide

example :
    applySaved (some Stored.corrupt) [{id := 0, name := some "A"}] =
    Except.error JsError.parseError := by decide

/-! ## Helper lemmas -/

theorem getLast?_mem' {α : Type} {l : List α} {a : α}
    (h : l.getLast? = some a) : a ∈ l := by
  induction l with
  | nil => simp at h
  | cons x xs ih =>
      cases xs with
      | nil => simp_all [List.getLast?]
      | cons y ys =>
          rw [List.getLast?_cons_cons] at h
          exact List.mem_cons_of_mem _ (ih h)

theorem goodName_eq_some {r : Row} {s : String}
    (h : goodName r = some s) : r.name = some s ∧ s ≠ "" := by
  unfold goodName at h
  cases hn : r.name with
  | none => simp [hn] at h
  | some t =>
      rw [hn] at h
      by_cases ht : t = "" <;> simp [ht] at h
      simp_all

theorem mapGet_mem {rows : List Row} {s : String} {r : Row}
    (h : mapGet rows s = some r) : r ∈ rows ∧ goodName r = some s := by
  unfold mapGet at h
  have hmem := getLast?_mem' h
  have := List.mem_filter.mp hmem
  refine ⟨this.1, ?_⟩
  have hb := this.2
  simpa using hb

theorem id_inj {rows : List Row} (hids : (rows.map Row.id).Nodup)
    {a b : Row} (ha : a ∈ rows) (hb : b ∈ rows) (h : a.id = b.id) :
    a = b :=
  List.inj_on_of_nodup_map hids ha hb h

theorem movedRows_mem {rows : List Row} {ns : List Json} {m : Row}
    (h : m ∈ movedRows rows ns) :
    ∃ s, Json.str s ∈ ns ∧ mapGet rows s = some m := by
  unfold movedRows at h
  obtain ⟨n, hn, hmap⟩ := List.mem_filterMap.mp h
  cases n with
  | str s => exact ⟨s, hn, hmap⟩
  | null => simp at hmap
  | bool b => simp at hmap
  | num k => simp at hmap
  | arr xs => simp at hmap
  | obj => simp at hmap

theorem strNames_cons_str (s : String) (ns : List Json) :
    strNames (Json.str s :: ns) = s :: strNames ns := by
  simp [strNames]

theorem strNames_map_str (S : List String) :
    strNames (S.map Json.str) = S := by
  induction S with
  | nil => rfl
  | cons s rest ih => simp [strNames] at ih ⊢; exact ih

theorem applyNamesAux_no_match (rows : List Row) (ns : List Json)
    (cur : List Row)
    (h : ∀ s, Json.str s ∈ ns → mapGet rows s = none) :
    applyNamesAux rows cur ns = cur := by
  induction ns generalizing cur with
  | nil => rfl
  | cons n ns ih =>
      have hstep : applyStep rows cur n = cur := by
        cases n with
        | str s =>
            have := h s (List.mem_cons_self _ _)
            simp [applyStep, this]
        | null => rfl
        | bool b => rfl
        | num k => rfl
        | arr xs => rfl
        | obj => rfl
      show List.foldl (applyStep rows) cur (n :: ns) = cur
      rw [List.foldl_cons, hstep]
      exact ih cur fun s hs => h s (List.mem_cons_of_mem _ hs)

/-- C2: the claim that every corrupt stored value is tolerated is false:
with the stored value not valid JSON, the restore routine does not
complete — `JSON.parse` raises, and the error propagates instead of
leaving the list unchanged. -/
theorem storage_corrupt_cex :
    applySaved (some Stored.corrupt) [{id := 0, name := some "A"}] =
      Except.error JsError.parseError ∧
    applySaved (some Stored.corrupt) [{id := 0, name := some "A"}] ≠
      Except.ok [({id := 0, name := some "A"} : Row)] := by
  constructor
  · rfl
  · decide

/-- C2 (amended): a missing stored value, a parsed value with an absent
or zero length (numbers, booleans, plain objects, the empty array, the
empty string), and arrays none of whose entries matches a current row are
all treated exactly as "no saved order": the restore routine completes
without error and returns the rows unchanged.  Corrupt values raise a
parse error instead, and a stored JSON `null` or non-empty string raises
a type error. -/
theorem storage_tolerated_no_effect (stored : Option Stored)
    (rows : List Row) (h : storeTolerated stored rows = true) :
    applySaved stored rows = Except.ok rows := by
  cases stored with
  | none => rfl
  | some v =>
      cases v with
      | corrupt => simp [storeTolerated] at h
      | json j =>
          cases j with
          | null => simp [storeTolerated] at h
          | bool b => rfl
          | num k => rfl
          | obj => rfl
          | str s =>
              have hs : s = "" := by simpa [storeTolerated] using h
              subst hs
              rfl
          | arr xs =>
              have hmiss : ∀ s, Json.str s ∈ xs → mapGet rows s = none := by
                intro s hs
                have hall := List.all_eq_true.mp (by simpa [storeTolerated] using h)
                have := hall _ hs
                simpa [Option.isNone_iff_eq_none] using this
              cases hxs : xs.isEmpty
              · have : applyNames rows xs = rows :=
                  applyNamesAux_no_match rows xs rows hmiss
                simp [applySaved, Store.get, jsLen, Bind.bind, Except.bind,
                      pure, Except.pure, hxs, this]
              · have : xs = [] := by simpa [List.isEmpty_iff] using hxs
                subst this
                rfl

/-- C2 witness: a stored JSON number is tolerated and leaves a concrete
one-row list unchanged. -/
theorem storage_tolerated_no_effect_witness :
    applySaved (some (Stored.json (Json.num 7))) [{id := 0, name := some "A"}] =
      Except.ok [({id := 0, name := some "A"} : Row)] :=
  storage_tolerated_no_effect _ _ (by rfl)

theorem mem_strNames_of_mem {s : String} {ns : List Json}
    (h : Json.str s ∈ ns) : s ∈ strNames ns :=
  List.mem_filterMap.mpr ⟨Json.str s, h, rfl⟩

theorem applyNamesAux_eq (rows : List Row)
    (hids : (rows.map Row.id).Nodup) :
    ∀ ns : List Json, (strNames ns).Nodup →
      ∀ cur : List Row,
        applyNamesAux rows cur ns =
          cur.filter (fun r => (movedRows rows ns).all fun m => m.id != r.id)
            ++ movedRows rows ns := by
  intro ns
  induction ns with
  | nil =>
      intro _ cur
      simp [applyNamesAux, movedRows]
  | cons n ns ih =>
      intro hnd cur
      have hfold :
          applyNamesAux rows cur (n :: ns) =
            applyNamesAux rows (applyStep rows cur n) ns := rfl
      rw [hfold]
      cases n with
      | str s =>
          have hnds : (strNames ns).Nodup := by
            rw [strNames_cons_str] at hnd
            exact hnd.of_cons
          have hs : s ∉ strNames ns := by
            rw [strNames_cons_str] at hnd
            exact (List.nodup_cons.mp hnd).1
          cases hget : mapGet rows s with
          | none =>
              have hmoved :
                  movedRows rows (Json.str s :: ns) = movedRows rows ns := by
                simp [movedRows, hget]
              have hstep : applyStep rows cur (Json.str s) = cur := by
                simp [applyStep, hget]
              rw [hmoved, hstep]
              exact ih hnds cur
          | some el =>
              have hel := mapGet_mem hget
              have hPel :
                  ((movedRows rows ns).all fun m => m.id != el.id) = true := by
                rw [List.all_eq_true]
                intro m hm
                obtain ⟨s', hs', hget'⟩ := movedRows_mem hm
                have hm' := mapGet_mem hget'
                have hne : s' ≠ s := fun hss =>
                  hs (hss ▸ mem_strNames_of_mem hs')
                rw [bne_iff_ne]
                intro hid
                apply hne
                have hmel : m = el := id_inj hids hm'.1 hel.1 hid
                have h1 : goodName el = some s' := hmel ▸ hm'.2
                rw [hel.2] at h1
                exact (Option.some.inj h1).symm
              have hmoved :
                  movedRows rows (Json.str s :: ns) =
                    el :: movedRows rows ns := by
                simp [movedRows, hget]
              have hstep :
                  applyStep rows cur (Json.str s) = jsAppendChild cur el := by
                simp [applyStep, hget]
              rw [hmoved, hstep, ih hnds]
              simp only [jsAppendChild, List.filter_append,
                List.filter_filter, List.all_cons, List.filter_cons, hPel,
                Bool.and_true, List.filter_nil]
              simp [List.append_assoc]
              exact List.filter_congr fun a _ => Bool.and_comm _ _
      | null =>
          have : movedRows rows (Json.null :: ns) = movedRows rows ns := by
            simp [movedRows]
          rw [this]
          exact ih (by simpa [strNames] using hnd) cur
      | bool b =>
          have : movedRows rows (Json.bool b :: ns) = movedRows rows ns := by
            simp [movedRows]
          rw [this]
          exact ih (by simpa [strNames] using hnd) cur
      | num k =>
          have : movedRows rows (Json.num k :: ns) = movedRows rows ns := by
            simp [movedRows]
          rw [this]
          exact ih (by simpa [strNames] using hnd) cur
      | arr xs =>
          have : movedRows rows (Json.arr xs :: ns) = movedRows rows ns := by
            simp [movedRows]
          rw [this]
          exact ih (by simpa [strNames] using hnd) cur
      | obj =>
          have : movedRows rows (Json.obj :: ns) = movedRows rows ns := by
            simp [movedRows]
          rw [this]
          exact ih (by simpa [strNames] using hnd) cur

/-- C3 counterexample: restoring saved order `["X","A"]` against a list
in DOM order `[A,B]` (no row named `X`) yields `[B,A]`, not the `[A,B]`
the claim demands — `appendChild` moves the matched row `A` to the end,
behind the untouched row `B`. -/
theorem applySaved_unmatched_cex :
    applySaved (savedValue ["X", "A"])
        [{id := 0, name := some "A"}, {id := 1, name := some "B"}] =
      Except.ok
        [{id := 1, name := some "B"}, {id := 0, name := some "A"}] ∧
    applySaved (savedValue ["X", "A"])
        [{id := 0, name := some "A"}, {id := 1, name := some "B"}] ≠
      Except.ok
        [({id := 0, name := some "A"} : Row), {id := 1, name := some "B"}] := by
  constructor
  · rfl
  · decide

/-- C3 (amended): after the restore routine runs with a saved order of
distinct names against rows with distinct identities, the rows NOT named
in the saved order come first, keeping their original relative order, and
the rows whose names appear in the saved order follow at the end, in
saved order with absent names skipped; in particular saved `["X","A"]`
against `[A,B]` yields `[B,A]`. -/
theorem applySaved_order (S : List String) (rows : List Row)
    (hids : (rows.map Row.id).Nodup) (hS : S.Nodup) :
    applySaved (savedValue S) rows =
      Except.ok
        (rows.filter
            (fun r =>
              (movedRows rows (S.map Json.str)).all fun m => m.id != r.id)
          ++ movedRows rows (S.map Json.str)) := by
  cases S with
  | nil =>
      simp [applySaved, savedValue, Store.get, jsLen, Bind.bind, Except.bind,
        pure, Except.pure, movedRows]
  | cons s S' =>
      have h :=
        applyNamesAux_eq rows hids ((s :: S').map Json.str)
          (by rw [strNames_map_str]; exact hS) rows
      simp only [applySaved, savedValue, Store.get, jsLen, Bind.bind,
        Except.bind, pure, Except.pure, applyNames, List.map_cons,
        List.isEmpty_cons, Bool.not_false]
      rw [if_neg (by simp)]
      rw [List.map_cons] at h
      exact congrArg Except.ok h

/-- C3 witness: the amended order law evaluated at saved `["X","A"]`
against rows `[A,B]`, giving `[B,A]`. -/
theorem applySaved_order_witness :
    applySaved (savedValue ["X", "A"])
        [{id := 2, name := some "A"}, {id := 3, name := some "B"}] =
      Except.ok
        [{id := 3, name := some "B"}, {id := 2, name := some "A"}] :=
  applySaved_order ["X", "A"]
    [{id := 2, name := some "A"}, {id := 3, name := some "B"}]
    (by decide) (by decide)

theorem mapGet_eq_self (rows : List Row) :
    ∀ r : Row, (rows.map Row.name).Nodup → r ∈ rows →
      ∀ s : String, r.name = some s → s ≠ "" → mapGet rows s = some r := by
  induction rows with
  | nil => intro r _ hr; simp at hr
  | cons a tl ih =>
      intro r hnd hr s hname hs
      rw [List.map_cons, List.nodup_cons] at hnd
      rcases List.mem_cons.mp hr with rfl | hrtl
      · have hqa : (goodName r == some s) = true := by
          simp [goodName, hname, hs]
        have htl : tl.filter (fun x => goodName x == some s) = [] := by
          rw [List.filter_eq_nil_iff]
          intro x hx hqx
          apply hnd.1
          have hxname : x.name = some s :=
            (goodName_eq_some (by simpa using hqx)).1
          rw [hname, ← hxname]
          exact List.mem_map_of_mem Row.name hx
        show ((r :: tl).filter (fun x => goodName x == some s)).getLast?
          = some r
        simp [List.filter_cons, hqa, htl]
      · have hqa : (goodName a == some s) = false := by
          rw [Bool.eq_false_iff]
          intro hqx
          apply hnd.1
          have haname : a.name = some s :=
            (goodName_eq_some (by simpa using hqx)).1
          rw [haname, ← hname]
          exact List.mem_map_of_mem Row.name hrtl
        show ((a :: tl).filter (fun x => goodName x == some s)).getLast?
          = some r
        rw [List.filter_cons_of_neg (by simp [hqa])]
        exact ih r hnd.2 hrtl s hname hs

theorem movedRows_names (rows : List Row) :
    ∀ S : List String,
      (∀ s ∈ S, ∃ r, mapGet rows s = some r ∧ r.name = some s) →
      (movedRows rows (S.map Json.str)).map Row.name = S.map some := by
  intro S
  induction S with
  | nil => intro _; rfl
  | cons s S' ih =>
      intro h
      obtain ⟨r, hget, hname⟩ := h s (List.mem_cons_self _ _)
      have hcons :
          movedRows rows ((s :: S').map Json.str) =
            r :: movedRows rows (S'.map Json.str) := by
        simp [movedRows, hget]
      rw [hcons, List.map_cons, List.map_cons, hname]
      rw [ih fun t ht => h t (List.mem_cons_of_mem _ ht)]

/-- C1: round-trip law.  Saving a sequence `S` of distinct (non-empty)
display names in the save routine's storage format and restoring it
against a list whose rows are named exactly by the elements of `S` — in
any initial order — leaves the rows in DOM order `S`. -/
theorem saved_roundTrip (S : List String) (rows : List Row)
    (hS : S.Nodup) (hne : ∀ s ∈ S, s ≠ "")
    (hids : (rows.map Row.id).Nodup)
    (hperm : (rows.map Row.name).Perm (S.map some)) :
    (applySaved (savedValue S) rows).map (fun l => l.map Row.name) =
      Except.ok (S.map some) := by
  have hndnames : (rows.map Row.name).Nodup :=
    (hperm.nodup_iff).mpr (hS.map (Option.some_injective _))
  have hmem : ∀ s ∈ S, ∃ r, mapGet rows s = some r ∧ r.name = some s := by
    intro s hsS
    have : some s ∈ rows.map Row.name :=
      (hperm.mem_iff).mpr (List.mem_map_of_mem some hsS)
    obtain ⟨r, hr, hname⟩ := List.mem_map.mp this
    exact ⟨r, mapGet_eq_self rows r hndnames hr s hname (hne s hsS), hname⟩
  have hfilter :
      rows.filter
          (fun r =>
            (movedRows rows (S.map Json.str)).all fun m => m.id != r.id)
        = [] := by
    rw [List.filter_eq_nil_iff]
    intro r hr hall
    have : r.name ∈ S.map some :=
      (hperm.mem_iff).mp (List.mem_map_of_mem Row.name hr)
    obtain ⟨s, hsS, hname⟩ := List.mem_map.mp this
    have hget : mapGet rows s = some r :=
      mapGet_eq_self rows r hndnames hr s hname.symm (hne s hsS)
    have hrmoved : r ∈ movedRows rows (S.map Json.str) :=
      List.mem_filterMap.mpr
        ⟨Json.str s, List.mem_map_of_mem Json.str hsS, by simp [hget]⟩
    have hcontr := List.all_eq_true.mp hall r hrmoved
    simp at hcontr
  rw [applySaved_order S rows hids hS, hfilter, List.nil_append]
  simp only [Except.map]
  rw [movedRows_names rows S hmem]

/-- C1 witness: the round-trip law evaluated at `S = ["B","A"]` against a
list in the opposite initial order. -/
theorem saved_roundTrip_witness :
    (applySaved (savedValue ["B", "A"])
          [{id := 4, name := some "A"}, {id := 5, name := some "B"}]).map
        (fun l => l.map Row.name) =
      Except.ok [some "B", some "A"] :=
  saved_roundTrip ["B", "A"]
    [{id := 4, name := some "A"}, {id := 5, name := some "B"}]
    (by decide) (by decide) (by decide) (by decide)

theorem filter_bne_append_perm :
    ∀ (cur : List Row) (el : Row), el ∈ cur → (cur.map Row.id).Nodup →
      (cur.filter (fun r => el.id != r.id) ++ [el]).Perm cur := by
  intro cur
  induction cur with
  | nil => intro el hel; simp at hel
  | cons c cs ih =>
      intro el hel hnd
      rw [List.map_cons, List.nodup_cons] at hnd
      by_cases hcid : el.id = c.id
      · have hel_eq : el = c := by
          rcases List.mem_cons.mp hel with rfl | hmem
          · rfl
          · exact absurd (hcid ▸ List.mem_map_of_mem Row.id hmem) hnd.1
        subst hel_eq
        have hq : (el.id != el.id) = false := by simp
        have hcs : cs.filter (fun r => el.id != r.id) = cs := by
          rw [List.filter_eq_self]
          intro x hx
          simp only [bne_iff_ne, ne_eq, decide_eq_true_eq]
          intro hxid
          exact hnd.1 (hxid ▸ List.mem_map_of_mem Row.id hx)
        rw [List.filter_cons_of_neg (by simp), hcs]
        exact List.perm_append_singleton el cs
      · have helcs : el ∈ cs := by
          rcases List.mem_cons.mp hel with rfl | hmem
          · exact absurd rfl hcid
          · exact hmem
        rw [List.filter_cons_of_pos (by simp [bne_iff_ne]; exact hcid)]
        rw [List.cons_append]
        exact (ih el helcs hnd.2).cons c

theorem applyNamesAux_perm (rows : List Row)
    (hids : (rows.map Row.id).Nodup) :
    ∀ (ns : List Json) (cur : List Row), cur.Perm rows →
      (applyNamesAux rows cur ns).Perm rows := by
  intro ns
  induction ns with
  | nil => intro cur h; exact h
  | cons n ns ih =>
      intro cur h
      have hstep : (applyStep rows cur n).Perm rows := by
        cases n with
        | str s =>
            cases hget : mapGet rows s with
            | none => simpa [applyStep, hget] using h
            | some el =>
                have hel := (mapGet_mem hget).1
                have helcur : el ∈ cur := h.mem_iff.mpr hel
                have hndcur : (cur.map Row.id).Nodup :=
                  ((h.map Row.id).nodup_iff).mpr hids
                have hp := filter_bne_append_perm cur el helcur hndcur
                simpa [applyStep, hget, jsAppendChild] using hp.trans h
        | null => exact h
        | bool b => exact h
        | num k => exact h
        | arr xs => exact h
        | obj => exact h
      exact ih _ hstep

/-- C9: restore preserves the rows.  Whenever the restore routine
completes against rows with distinct identities, the resulting child list
is a permutation of the original one — rows are only moved within the
container, never added, removed or duplicated. -/
theorem applySaved_preserves_rows (stored : Option Stored)
    (rows res : List Row) (hids : (rows.map Row.id).Nodup)
    (h : applySaved stored rows = Except.ok res) :
    res.Perm rows := by
  cases stored with
  | none =>
      have : rows = res := by simpa [applySaved, Store.get, jsLen,
        Bind.bind, Except.bind, pure, Except.pure] using h
      exact this ▸ List.Perm.refl res
  | some v =>
      cases v with
      | corrupt =>
          simp [applySaved, Store.get, Bind.bind, Except.bind] at h
      | json j =>
          cases j with
          | null =>
              simp [applySaved, Store.get, jsLen, Bind.bind, Except.bind] at h
          | bool b =>
              have : rows = res := by simpa [applySaved, Store.get, jsLen,
                Bind.bind, Except.bind, pure, Except.pure] using h
              exact this ▸ List.Perm.refl res
          | num k =>
              have : rows = res := by simpa [applySaved, Store.get, jsLen,
                Bind.bind, Except.bind, pure, Except.pure] using h
              exact this ▸ List.Perm.refl res
          | obj =>
              have : rows = res := by simpa [applySaved, Store.get, jsLen,
                Bind.bind, Except.bind, pure, Except.pure] using h
              exact this ▸ List.Perm.refl res
          | str s =>
              by_cases hs : s = ""
              · subst hs
                have : rows = res := by simpa [applySaved, Store.get, jsLen,
                  Bind.bind, Except.bind, pure, Except.pure] using h
                exact this ▸ List.Perm.refl res
              · simp [applySaved, Store.get, jsLen, Bind.bind, Except.bind,
                  pure, Except.pure, hs] at h
          | arr xs =>
              cases hxs : xs.isEmpty
              · have hres : applyNames rows xs = res := by
                  simpa [applySaved, Store.get, jsLen, Bind.bind,
                    Except.bind, pure, Except.pure, hxs] using h
                rw [← hres]
                exact applyNamesAux_perm rows hids xs rows (List.Perm.refl _)
              · have hnil : xs = [] := by
                  simpa [List.isEmpty_iff] using hxs
                subst hnil
                have : rows = res := by simpa [applySaved, Store.get, jsLen,
                  Bind.bind, Except.bind, pure, Except.pure] using h
                exact this ▸ List.Perm.refl res

/-- C9 witness: a concrete restore that moves a row still yields a
permutation of the original rows. -/
theorem applySaved_preserves_rows_witness :
    (([{id := 7, name := some "B"}, {id := 6, name := some "A"}] :
        List Row).Perm
      [{id := 6, name := some "A"}, {id := 7, name := some "B"}]) :=
  applySaved_preserves_rows (savedValue ["A"])
    [{id := 6, name := some "A"}, {id := 7, name := some "B"}]
    [{id := 7, name := some "B"}, {id := 6, name := some "A"}]
    (by decide) (by rfl)

theorem rowsOf_styleChildren (d : DragInfo) (e : Ptr) :
    ∀ l : List Node,
      rowsOf (styleChildren d e l) = (rowsOf l).map (dragStyled d e) := by
  intro l
  induction l with
  | nil => rfl
  | cons n rest ih =>
      cases n with
      | row r => simp [styleChildren, rowsOf] at ih ⊢; exact ih
      | ph => simp [styleChildren, rowsOf] at ih ⊢; exact ih

theorem rowsOf_removePh : ∀ l : List Node, rowsOf (removePh l) = rowsOf l := by
  intro l
  induction l with
  | nil => rfl
  | cons n rest ih =>
      cases n with
      | row r => simp [removePh, Node.isPh, rowsOf] at ih ⊢; exact ih
      | ph => simp [removePh, Node.isPh, rowsOf] at ih ⊢; exact ih

theorem rowsOf_insertPhBefore :
    ∀ (l : List Node) (rid : Nat), rowsOf (insertPhBefore l rid) = rowsOf l := by
  intro l
  induction l with
  | nil => intro rid; rfl
  | cons n rest ih =>
      intro rid
      cases n with
      | row r =>
          by_cases h : r.id = rid
          · simp [insertPhBefore, h, rowsOf]
          · simp [insertPhBefore, h, rowsOf, ih]
      | ph => simp [insertPhBefore, rowsOf, ih]

theorem rowsOf_insertPhAfter :
    ∀ (l : List Node) (rid : Nat), rowsOf (insertPhAfter l rid) = rowsOf l := by
  intro l
  induction l with
  | nil => intro rid; rfl
  | cons n rest ih =>
      intro rid
      cases n with
      | row r =>
          by_cases h : r.id = rid
          · simp [insertPhAfter, h, rowsOf]
          · simp [insertPhAfter, h, rowsOf, ih]
      | ph => simp [insertPhAfter, rowsOf, ih]

theorem rowsOf_placePh (l : List Node) (oc : Option Row) (e : Ptr) :
    rowsOf (placePh l oc e) = rowsOf l := by
  cases oc with
  | none => rfl
  | some c =>
      by_cases h : 2 * e.y < 2 * c.top + c.height
      · simp [placePh, h, rowsOf_insertPhBefore, rowsOf_removePh]
      · simp [placePh, h, rowsOf_insertPhAfter, rowsOf_removePh]

/-- C10: frame property of the move handler.  During a drag, a move
event leaves the stored order, the installed handlers and the drag
session untouched, and the rows in DOM order are exactly the old rows in
the old order with only the dragged row's inline `left`/`top` updated —
so the relative order of the non-dragged rows never changes and nothing
is written to the store (only the scroll offset and the placeholder's
position may change besides). -/
theorem move_frame (g : Geom) (e : Ptr) (s : WState) (d : DragInfo)
    (hd : s.drag = some d) :
    (moveHandler g e s).stored = s.stored ∧
    (moveHandler g e s).handlers = s.handlers ∧
    (moveHandler g e s).drag = s.drag ∧
    rowsOf (moveHandler g e s).children =
      (rowsOf s.children).map (dragStyled d e) := by
  refine ⟨?_, ?_, ?_, ?_⟩
  · simp [moveHandler, hd]
  · simp [moveHandler, hd]
  · simp [moveHandler, hd]
  · simp only [moveHandler, hd]
    rw [rowsOf_placePh, rowsOf_styleChildren]

/-- C10 witness: the frame property evaluated on a concrete two-row drag
state. -/
theorem move_frame_witness :
    (moveHandler {listTop := 0, listBottom := 1000} {x := 3, y := 16}
          { children :=
              [Node.ph, Node.row {id := 0, name := some "A", height := 10},
               Node.row {id := 1, name := some "B", top := 10, height := 10}],
            scrollTop := 0, stored := none, handlers := true,
            drag := some {rowId := 0, offX := 1, offY := 2, edge := 40} }).stored
        = none ∧
    rowsOf
        (moveHandler {listTop := 0, listBottom := 1000} {x := 3, y := 16}
            { children :=
                [Node.ph, Node.row {id := 0, name := some "A", height := 10},
                 Node.row {id := 1, name := some "B", top := 10, height := 10}],
              scrollTop := 0, stored := none, handlers := true,
              drag := some {rowId := 0, offX := 1, offY := 2, edge := 40} }).children
      = [dragStyled {rowId := 0, offX := 1, offY := 2, edge := 40} {x := 3, y := 16}
           {id := 0, name := some "A", height := 10},
         dragStyled {rowId := 0, offX := 1, offY := 2, edge := 40} {x := 3, y := 16}
           {id := 1, name := some "B", top := 10, height := 10}] := by
  have h := move_frame {listTop := 0, listBottom := 1000} {x := 3, y := 16}
    { children :=
        [Node.ph, Node.row {id := 0, name := some "A", height := 10},
         Node.row {id := 1, name := some "B", top := 10, height := 10}],
      scrollTop := 0, stored := none, handlers := true,
      drag := some {rowId := 0, offX := 1, offY := 2, edge := 40} }
    {rowId := 0, offX := 1, offY := 2, edge := 40} rfl
  exact ⟨h.1, h.2.2.2⟩

/-- C4 counterexample: on a list container shorter than twice the edge
margin (top 0, bottom 50, margin 40) a pointer at `y = 30` lies strictly
within the margin of the bottom bound (and inside the container), yet the
move handler DECREASES the scroll offset by the margin — the top-edge
check fires first — rather than increasing it as the claim demands. -/
theorem autoScroll_overlap_cex :
    ((0 : Int) ≤ 30 ∧ (30 : Int) ≤ 50 ∧ (50 : Int) - 40 < 30) ∧
    (moveHandler {listTop := 0, listBottom := 50} {x := 0, y := 30}
          { children := [], scrollTop := 100, stored := none,
            handlers := true,
            drag := some {rowId := 0, offX := 0, offY := 0, edge := 40} }).scrollTop
        = 60 ∧
    (60 : Int) ≠ 100 + 40 := by
  refine ⟨by decide, by rfl, by decide⟩

/-- C4 (amended): on each move event during a drag the top-edge check is
applied first: when the pointer Y is strictly above `top + margin` the
scroll offset decreases by exactly the margin; otherwise, when it is
strictly below `bottom - margin`, the offset increases by exactly the
margin; otherwise the offset is unchanged. -/
theorem autoScroll_cases (g : Geom) (e : Ptr) (s : WState) (d : DragInfo)
    (hd : s.drag = some d) :
    (e.y < g.listTop + d.edge →
      (moveHandler g e s).scrollTop = s.scrollTop - d.edge) ∧
    (g.listTop + d.edge ≤ e.y → g.listBottom - d.edge < e.y →
      (moveHandler g e s).scrollTop = s.scrollTop + d.edge) ∧
    (g.listTop + d.edge ≤ e.y → e.y ≤ g.listBottom - d.edge →
      (moveHandler g e s).scrollTop = s.scrollTop) := by
  refine ⟨?_, ?_, ?_⟩ <;>
    · intros
      simp only [moveHandler, hd]
      split_ifs <;> omega

/-- C4 witness: the amended auto-scroll law evaluated in all three
regions on a tall container. -/
theorem autoScroll_cases_witness :
    (moveHandler {listTop := 0, listBottom := 1000} {x := 0, y := 10}
          { children := [], scrollTop := 100, stored := none,
            handlers := true,
            drag := some {rowId := 0, offX := 0, offY := 0, edge := 40} }).scrollTop
        = 60 ∧
    (moveHandler {listTop := 0, listBottom := 1000} {x := 0, y := 990}
          { children := [], scrollTop := 100, stored := none,
            handlers := true,
            drag := some {rowId := 0, offX := 0, offY := 0, edge := 40} }).scrollTop
        = 140 ∧
    (moveHandler {listTop := 0, listBottom := 1000} {x := 0, y := 500}
          { children := [], scrollTop := 100, stored := none,
            handlers := true,
            drag := some {rowId := 0, offX := 0, offY := 0, edge := 40} }).scrollTop
        = 100 := by
  refine ⟨?_, ?_, ?_⟩
  · exact (autoScroll_cases {listTop := 0, listBottom := 1000} {x := 0, y := 10}
      { children := [], scrollTop := 100, stored := none, handlers := true,
        drag := some {rowId := 0, offX := 0, offY := 0, edge := 40} }
      {rowId := 0, offX := 0, offY := 0, edge := 40} rfl).1 (by decide)
  · exact (autoScroll_cases {listTop := 0, listBottom := 1000} {x := 0, y := 990}
      { children := [], scrollTop := 100, stored := none, handlers := true,
        drag := some {rowId := 0, offX := 0, offY := 0, edge := 40} }
      {rowId := 0, offX := 0, offY := 0, edge := 40} rfl).2.1 (by decide) (by decide)
  · exact (autoScroll_cases {listTop := 0, listBottom := 1000} {x := 0, y := 500}
      { children := [], scrollTop := 100, stored := none, handlers := true,
        drag := some {rowId := 0, offX := 0, offY := 0, edge := 40} }
      {rowId := 0, offX := 0, offY := 0, edge := 40} rfl).2.2 (by decide) (by decide)

theorem phCount_nil : phCount [] = 0 := rfl

theorem phCount_cons_ph (rest : List Node) :
    phCount (Node.ph :: rest) = phCount rest + 1 := by
  simp [phCount, Node.isPh, List.filter_cons]

theorem phCount_cons_row (r : Row) (rest : List Node) :
    phCount (Node.row r :: rest) = phCount rest := by
  simp [phCount, Node.isPh, List.filter_cons]

theorem phCount_styleChildren (d : DragInfo) (e : Ptr) :
    ∀ l : List Node, phCount (styleChildren d e l) = phCount l := by
  intro l
  induction l with
  | nil => rfl
  | cons n rest ih =>
      cases n with
      | row r =>
          simp only [styleChildren, List.map_cons] at ih ⊢
          rw [phCount_cons_row, phCount_cons_row, ih]
      | ph =>
          simp only [styleChildren, List.map_cons] at ih ⊢
          rw [phCount_cons_ph, phCount_cons_ph, ih]

theorem phCount_updateRow (rid : Nat) (r' : Row) :
    ∀ l : List Node, phCount (updateRow l rid r') = phCount l := by
  intro l
  induction l with
  | nil => rfl
  | cons n rest ih =>
      cases n with
      | row r =>
          simp only [updateRow, List.map_cons] at ih ⊢
          by_cases h : r.id = rid
          · rw [if_pos h, phCount_cons_row, phCount_cons_row, ih]
          · rw [if_neg h, phCount_cons_row, phCount_cons_row, ih]
      | ph =>
          simp only [updateRow, List.map_cons] at ih ⊢
          rw [phCount_cons_ph, phCount_cons_ph, ih]

theorem phCount_removePh : ∀ l : List Node, phCount (removePh l) = 0 := by
  intro l
  induction l with
  | nil => rfl
  | cons n rest ih =>
      cases n with
      | row r =>
          simp only [removePh, Node.isPh, List.filter_cons] at ih ⊢
          simpa [phCount_cons_row] using ih
      | ph =>
          simp only [removePh, Node.isPh, List.filter_cons] at ih ⊢
          simpa using ih

theorem hasRowId_of_mem_rowsOf {c : Row} :
    ∀ l : List Node, c ∈ rowsOf l → hasRowId l c.id = true := by
  intro l hc
  exact List.any_eq_true.mpr ⟨c, hc, by simp⟩

theorem phCount_insertPhBefore :
    ∀ (l : List Node) (rid : Nat), hasRowId l rid = true →
      phCount (insertPhBefore l rid) = phCount l + 1 := by
  intro l
  induction l with
  | nil => intro rid h; simp [hasRowId, rowsOf] at h
  | cons n rest ih =>
      intro rid h
      cases n with
      | row r =>
          by_cases hr : r.id = rid
          · simp only [insertPhBefore, if_pos hr]
            rw [phCount_cons_ph]
          · simp only [insertPhBefore, if_neg hr]
            rw [phCount_cons_row, phCount_cons_row]
            apply ih
            have hh : (r.id == rid) = false := by simp [hr]
            simpa [hasRowId, rowsOf, hh] using h
      | ph =>
          simp only [insertPhBefore]
          rw [phCount_cons_ph, phCount_cons_ph]
          have : hasRowId rest rid = true := by
            simpa [hasRowId, rowsOf] using h
          rw [ih rid this]

theorem phCount_insertPhAfter :
    ∀ (l : List Node) (rid : Nat), hasRowId l rid = true →
      phCount (insertPhAfter l rid) = phCount l + 1 := by
  intro l
  induction l with
  | nil => intro rid h; simp [hasRowId, rowsOf] at h
  | cons n rest ih =>
      intro rid h
      cases n with
      | row r =>
          by_cases hr : r.id = rid
          · simp only [insertPhAfter, if_pos hr]
            rw [phCount_cons_row, phCount_cons_ph, phCount_cons_row]
          · simp only [insertPhAfter, if_neg hr]
            rw [phCount_cons_row, phCount_cons_row]
            apply ih
            have hh : (r.id == rid) = false := by simp [hr]
            simpa [hasRowId, rowsOf, hh] using h
      | ph =>
          simp only [insertPhAfter]
          rw [phCount_cons_ph, phCount_cons_ph]
          have : hasRowId rest rid = true := by
            simpa [hasRowId, rowsOf] using h
          rw [ih rid this]

theorem findCandidate_mem {d : DragInfo} {e : Ptr} {l : List Node} {c : Row}
    (h : findCandidate d e l = some c) :
    c ∈ rowsOf l ∧ c.id ≠ d.rowId := by
  have hmem := List.mem_of_find?_eq_some h
  have := List.mem_filter.mp hmem
  refine ⟨this.1, ?_⟩
  have hb := this.2
  simpa [bne_iff_ne] using hb

theorem phCount_placePh_some {d : DragInfo} {e : Ptr} {l : List Node}
    {c : Row} (h : findCandidate d e l = some c) :
    phCount (placePh l (some c) e) = 1 := by
  have hc : c ∈ rowsOf (removePh l) := by
    rw [rowsOf_removePh]
    exact (findCandidate_mem h).1
  have hhas := hasRowId_of_mem_rowsOf (removePh l) hc
  by_cases hy : 2 * e.y < 2 * c.top + c.height
  · simp only [placePh, if_pos hy]
    rw [phCount_insertPhBefore _ _ hhas, phCount_removePh]
  · simp only [placePh, if_neg hy]
    rw [phCount_insertPhAfter _ _ hhas, phCount_removePh]

/-- C6: drag-session invariant.  (a) Pointer-down on a row of a list with
no placeholder yields exactly one placeholder; (b) every move event keeps
the placeholder count at exactly one; (c) the candidate the move handler
places the placeholder against is never the dragged row itself — the
dragged row is excluded from the scan. -/
theorem drag_placeholder_invariant :
    (∀ (e : Ptr) (rid : Nat) (s : WState) (row : Row),
      phCount s.children = 0 → getRow s.children rid = some row →
      phCount (downHandler e rid s).children = 1) ∧
    (∀ (g : Geom) (e : Ptr) (s : WState),
      phCount s.children = 1 →
      phCount (moveHandler g e s).children = 1) ∧
    (∀ (d : DragInfo) (e : Ptr) (l : List Node) (c : Row),
      findCandidate d e l = some c → c.id ≠ d.rowId) := by
  refine ⟨?_, ?_, ?_⟩
  · intro e rid s row h0 hrow
    have hrow' : (rowsOf s.children).find? (fun r => r.id == rid) = some row :=
      hrow
    have hmem := List.mem_of_find?_eq_some hrow'
    have hid := List.find?_some hrow'
    have hhas : hasRowId s.children rid = true :=
      List.any_eq_true.mpr ⟨row, hmem, hid⟩
    simp only [downHandler, hrow]
    rw [phCount_updateRow, phCount_insertPhBefore _ _ hhas, h0]
  · intro g e s h1
    cases hd : s.drag with
    | none => simpa [moveHandler, hd] using h1
    | some d =>
        simp only [moveHandler, hd]
        cases hfc : findCandidate d e (styleChildren d e s.children) with
        | none =>
            show phCount (placePh (styleChildren d e s.children) none e) = 1
            rw [placePh, phCount_styleChildren]
            exact h1
        | some c =>
            show phCount
              (placePh (styleChildren d e s.children) (some c) e) = 1
            exact phCount_placePh_some hfc
  · intro d e l c h
    exact (findCandidate_mem h).2

/-- C6 witness: the invariant evaluated on a concrete two-row list —
pointer-down creates the single placeholder, a move keeps it single, and
a concrete candidate scan returns a row other than the dragged one. -/
theorem drag_placeholder_invariant_witness :
    phCount
        (downHandler {x := 0, y := 5} 0
            { children :=
                [Node.row {id := 0, name := some "A", height := 10},
                 Node.row {id := 1, name := some "B", top := 10, height := 10}],
              scrollTop := 0, stored := none, handlers := false,
              drag := none }).children = 1 ∧
    phCount
        (moveHandler {listTop := -100, listBottom := 1000} {x := 0, y := 16}
            { children :=
                [Node.ph, Node.row {id := 0, name := some "A", height := 10},
                 Node.row {id := 1, name := some "B", top := 10, height := 10}],
              scrollTop := 0, stored := none, handlers := true,
              drag := some {rowId := 0, offX := 0, offY := 5, edge := 40} }).children
      = 1 ∧
    (1 : Nat) ≠ 0 := by
  refine ⟨?_, ?_, ?_⟩
  · exact drag_placeholder_invariant.1 {x := 0, y := 5} 0
      { children :=
          [Node.row {id := 0, name := some "A", height := 10},
           Node.row {id := 1, name := some "B", top := 10, height := 10}],
        scrollTop := 0, stored := none, handlers := false, drag := none }
      {id := 0, name := some "A", height := 10} (by rfl) (by rfl)
  · exact drag_placeholder_invariant.2.1 {listTop := -100, listBottom := 1000}
      {x := 0, y := 16}
      { children :=
          [Node.ph, Node.row {id := 0, name := some "A", height := 10},
           Node.row {id := 1, name := some "B", top := 10, height := 10}],
        scrollTop := 0, stored := none, handlers := true,
        drag := some {rowId := 0, offX := 0, offY := 5, edge := 40} } (by rfl)
  · exact drag_placeholder_invariant.2.2
      {rowId := 0, offX := 0, offY := 5, edge := 40} {x := 0, y := 16}
      [Node.row {id := 0, name := some "A", height := 10},
       Node.row {id := 1, name := some "B", top := 10, height := 10}]
      {id := 1, name := some "B", top := 10, height := 10} (by rfl)

theorem filter_map_dragStyled (d : DragInfo) (e : Ptr) :
    ∀ rs : List Row,
      (rs.map (dragStyled d e)).filter (fun r => r.id != d.rowId) =
        rs.filter (fun r => r.id != d.rowId) := by
  intro rs
  induction rs with
  | nil => rfl
  | cons r rest ih =>
      by_cases h : r.id = d.rowId
      · have h1 : ((dragStyled d e r).id != d.rowId) = false := by
          simp [dragStyled, h]
        have h2 : (r.id != d.rowId) = false := by simp [h]
        simp only [List.map_cons, List.filter_cons, h1, h2, ih,
          Bool.false_eq_true, if_false]
      · have hsty : dragStyled d e r = r := by simp [dragStyled, h]
        simp only [List.map_cons, List.filter_cons, hsty, ih]

theorem findCandidate_styleChildren (d : DragInfo) (e : Ptr)
    (l : List Node) :
    findCandidate d e (styleChildren d e l) = findCandidate d e l := by
  unfold findCandidate candidates
  rw [rowsOf_styleChildren, filter_map_dragStyled]

theorem phIndex_styleChildren (d : DragInfo) (e : Ptr) :
    ∀ l : List Node, phIndex (styleChildren d e l) = phIndex l := by
  intro l
  induction l with
  | nil => rfl
  | cons n rest ih =>
      cases n with
      | row r =>
          show (phIndex (styleChildren d e rest)).map (· + 1) =
            (phIndex rest).map (· + 1)
          rw [ih]
      | ph => rfl

theorem mem_adjPairs_append (x y : Node) (b : List Node) :
    ∀ a : List Node, (x, y) ∈ adjPairs (a ++ x :: y :: b) := by
  intro a
  induction a with
  | nil => exact List.mem_cons_self _ _
  | cons n a' ih =>
      have hne : ∃ c rest, a' ++ x :: y :: b = c :: rest := by
        cases a' with
        | nil => exact ⟨x, y :: b, rfl⟩
        | cons c r => exact ⟨c, r ++ x :: y :: b, rfl⟩
      obtain ⟨c, rest, heq⟩ := hne
      rw [List.cons_append, heq]
      show (x, y) ∈ (n, c) :: adjPairs (c :: rest)
      apply List.mem_cons_of_mem
      rw [← heq]
      exact ih

theorem insertPhBefore_decomp :
    ∀ (l : List Node) (rid : Nat), hasRowId l rid = true →
      ∃ (a b : List Node) (r : Row), (r.id == rid) = true ∧
        insertPhBefore l rid = a ++ Node.ph :: Node.row r :: b := by
  intro l
  induction l with
  | nil => intro rid h; simp [hasRowId, rowsOf] at h
  | cons n rest ih =>
      intro rid h
      cases n with
      | row r =>
          by_cases hr : r.id = rid
          · exact ⟨[], rest, r, by simp [hr], by simp [insertPhBefore, hr]⟩
          · have hh : hasRowId rest rid = true := by
              have hb : (r.id == rid) = false := by simp [hr]
              simpa [hasRowId, rowsOf, hb] using h
            obtain ⟨a, b, r', hid, heq⟩ := ih rid hh
            exact ⟨Node.row r :: a, b, r', hid, by
              simp [insertPhBefore, hr, heq]⟩
      | ph =>
          have hh : hasRowId rest rid = true := by
            simpa [hasRowId, rowsOf] using h
          obtain ⟨a, b, r', hid, heq⟩ := ih rid hh
          exact ⟨Node.ph :: a, b, r', hid, by simp [insertPhBefore, heq]⟩

theorem insertPhAfter_decomp :
    ∀ (l : List Node) (rid : Nat), hasRowId l rid = true →
      ∃ (a b : List Node) (r : Row), (r.id == rid) = true ∧
        insertPhAfter l rid = a ++ Node.row r :: Node.ph :: b := by
  intro l
  induction l with
  | nil => intro rid h; simp [hasRowId, rowsOf] at h
  | cons n rest ih =>
      intro rid h
      cases n with
      | row r =>
          by_cases hr : r.id = rid
          · exact ⟨[], rest, r, by simp [hr], by simp [insertPhAfter, hr]⟩
          · have hh : hasRowId rest rid = true := by
              have hb : (r.id == rid) = false := by simp [hr]
              simpa [hasRowId, rowsOf, hb] using h
            obtain ⟨a, b, r', hid, heq⟩ := ih rid hh
            exact ⟨Node.row r :: a, b, r', hid, by
              simp [insertPhAfter, hr, heq]⟩
      | ph =>
          have hh : hasRowId rest rid = true := by
            simpa [hasRowId, rowsOf] using h
          obtain ⟨a, b, r', hid, heq⟩ := ih rid hh
          exact ⟨Node.ph :: a, b, r', hid, by simp [insertPhAfter, heq]⟩

theorem phJustBefore_append (a b : List Node) (r : Row) (rid : Nat)
    (hid : (r.id == rid) = true) :
    phJustBefore (a ++ Node.ph :: Node.row r :: b) rid = true := by
  unfold phJustBefore
  rw [List.any_eq_true]
  exact ⟨(Node.ph, Node.row r), mem_adjPairs_append _ _ _ a,
    by simp [Node.isPh, isRowId, hid]⟩

theorem phJustAfter_append (a b : List Node) (r : Row) (rid : Nat)
    (hid : (r.id == rid) = true) :
    phJustAfter (a ++ Node.row r :: Node.ph :: b) rid = true := by
  unfold phJustAfter
  rw [List.any_eq_true]
  exact ⟨(Node.row r, Node.ph), mem_adjPairs_append _ _ _ a,
    by simp [Node.isPh, isRowId, hid]⟩

/-- C7: placeholder placement rule.  On a move event during a drag, when
no candidate row's vertical bounds contain the pointer's Y the
placeholder's position among the children is unchanged (sticky); when the
first containing candidate is found, the placeholder ends up immediately
before it if the pointer is in the candidate's upper half
(`2*y < 2*top + height`, the integer form of `y < top + height/2`) and
immediately after it if in the lower half. -/
theorem move_placement (g : Geom) (e : Ptr) (s : WState) (d : DragInfo)
    (hd : s.drag = some d) :
    (findCandidate d e s.children = none →
      phIndex (moveHandler g e s).children = phIndex s.children) ∧
    (∀ c, findCandidate d e s.children = some c →
      (2 * e.y < 2 * c.top + c.height →
        phJustBefore (moveHandler g e s).children c.id = true) ∧
      (2 * c.top + c.height ≤ 2 * e.y →
        phJustAfter (moveHandler g e s).children c.id = true)) := by
  constructor
  · intro hnone
    simp only [moveHandler, hd]
    rw [findCandidate_styleChildren d e s.children, hnone]
    show phIndex (placePh (styleChildren d e s.children) none e) =
      phIndex s.children
    rw [placePh]
    exact phIndex_styleChildren d e s.children
  · intro c hsome
    have hcand := findCandidate_mem hsome
    have hstyc : dragStyled d e c = c := by
      simp [dragStyled, hcand.2]
    have hcmem : c ∈ rowsOf (removePh (styleChildren d e s.children)) := by
      rw [rowsOf_removePh, rowsOf_styleChildren]
      exact hstyc ▸ List.mem_map_of_mem (dragStyled d e) hcand.1
    have hhas := hasRowId_of_mem_rowsOf _ hcmem
    constructor
    · intro hy
      simp only [moveHandler, hd]
      rw [findCandidate_styleChildren d e s.children, hsome]
      show phJustBefore
        (placePh (styleChildren d e s.children) (some c) e) c.id = true
      rw [placePh, if_pos hy]
      obtain ⟨a, b, r, hid, heq⟩ := insertPhBefore_decomp _ c.id hhas
      rw [heq]
      exact phJustBefore_append a b r c.id hid
    · intro hy
      simp only [moveHandler, hd]
      rw [findCandidate_styleChildren d e s.children, hsome]
      show phJustAfter
        (placePh (styleChildren d e s.children) (some c) e) c.id = true
      rw [placePh, if_neg (by omega)]
      obtain ⟨a, b, r, hid, heq⟩ := insertPhAfter_decomp _ c.id hhas
      rw [heq]
      exact phJustAfter_append a b r c.id hid

/-- C7 witness: on a concrete drag of row 0 with the pointer inside row
1's lower half, the placeholder lands immediately after row 1; with the
pointer in a gap the placeholder index is unchanged. -/
theorem move_placement_witness :
    phJustAfter
        (moveHandler {listTop := -100, listBottom := 1000} {x := 0, y := 16}
            { children :=
                [Node.ph, Node.row {id := 0, name := some "A", height := 10},
                 Node.row {id := 1, name := some "B", top := 10, height := 10}],
              scrollTop := 0, stored := none, handlers := true,
              drag := some {rowId := 0, offX := 0, offY := 5, edge := 40} }).children
        1 = true ∧
    phIndex
        (moveHandler {listTop := -100, listBottom := 1000} {x := 0, y := 50}
            { children :=
                [Node.ph, Node.row {id := 0, name := some "A", height := 10},
                 Node.row {id := 1, name := some "B", top := 10, height := 10}],
              scrollTop := 0, stored := none, handlers := true,
              drag := some {rowId := 0, offX := 0, offY := 5, edge := 40} }).children
      = some 0 := by
  constructor
  · exact ((move_placement {listTop := -100, listBottom := 1000}
      {x := 0, y := 16}
      { children :=
          [Node.ph, Node.row {id := 0, name := some "A", height := 10},
           Node.row {id := 1, name := some "B", top := 10, height := 10}],
        scrollTop := 0, stored := none, handlers := true,
        drag := some {rowId := 0, offX := 0, offY := 5, edge := 40} }
      {rowId := 0, offX := 0, offY := 5, edge := 40} rfl).2
      {id := 1, name := some "B", top := 10, height := 10} (by rfl)).2
      (by decide)
  · have h := (move_placement {listTop := -100, listBottom := 1000}
      {x := 0, y := 50}
      { children :=
          [Node.ph, Node.row {id := 0, name := some "A", height := 10},
           Node.row {id := 1, name := some "B", top := 10, height := 10}],
        scrollTop := 0, stored := none, handlers := true,
        drag := some {rowId := 0, offX := 0, offY := 5, edge := 40} }
      {rowId := 0, offX := 0, offY := 5, edge := 40} rfl).1 (by rfl)
    rw [h]
    rfl

theorem applyNamesAux_subset (rows : List Row) :
    ∀ (ns : List Json) (cur : List Row),
      (∀ x ∈ cur, x ∈ rows) →
      ∀ x ∈ applyNamesAux rows cur ns, x ∈ rows := by
  intro ns
  induction ns with
  | nil => intro cur h x hx; exact h x hx
  | cons n ns ih =>
      intro cur h
      apply ih
      intro x hx
      cases n with
      | str s =>
          cases hget : mapGet rows s with
          | none =>
              rw [applyStep, hget] at hx
              exact h x hx
          | some el =>
              rw [applyStep, hget] at hx
              rcases List.mem_append.mp hx with hl | hr
              · exact h x (List.mem_of_mem_filter hl)
              · rw [List.mem_singleton.mp hr]
                exact (mapGet_mem hget).1
      | null => exact h x hx
      | bool b => exact h x hx
      | num k => exact h x hx
      | arr xs => exact h x hx
      | obj => exact h x hx

theorem applySaved_subset (stored : Option Stored) (rows res : List Row)
    (h : applySaved stored rows = Except.ok res) :
    ∀ r ∈ res, r ∈ rows := by
  cases stored with
  | none =>
      have : rows = res := by
        simpa [applySaved, Store.get, jsLen, Bind.bind, Except.bind, pure,
          Except.pure] using h
      intro r hr; exact this ▸ hr
  | some v =>
      cases v with
      | corrupt => simp [applySaved, Store.get, Bind.bind, Except.bind] at h
      | json j =>
          cases j with
          | null =>
              simp [applySaved, Store.get, jsLen, Bind.bind, Except.bind] at h
          | bool b =>
              have : rows = res := by
                simpa [applySaved, Store.get, jsLen, Bind.bind, Except.bind,
                  pure, Except.pure] using h
              intro r hr; exact this ▸ hr
          | num k =>
              have : rows = res := by
                simpa [applySaved, Store.get, jsLen, Bind.bind, Except.bind,
                  pure, Except.pure] using h
              intro r hr; exact this ▸ hr
          | obj =>
              have : rows = res := by
                simpa [applySaved, Store.get, jsLen, Bind.bind, Except.bind,
                  pure, Except.pure] using h
              intro r hr; exact this ▸ hr
          | str s =>
              by_cases hs : s = ""
              · subst hs
                have : rows = res := by
                  simpa [applySaved, Store.get, jsLen, Bind.bind, Except.bind,
                    pure, Except.pure] using h
                intro r hr; exact this ▸ hr
              · simp [applySaved, Store.get, jsLen, Bind.bind, Except.bind,
                  pure, Except.pure, hs] at h
          | arr xs =>
              cases hxs : xs.isEmpty
              · have hres : applyNames rows xs = res := by
                  simpa [applySaved, Store.get, jsLen, Bind.bind, Except.bind,
                    pure, Except.pure, hxs] using h
                rw [← hres]
                exact applyNamesAux_subset rows xs rows (fun x hx => hx)
              · have hnil : xs = [] := by simpa [List.isEmpty_iff] using hxs
                subst hnil
                have : rows = res := by
                  simpa [applySaved, Store.get, jsLen, Bind.bind, Except.bind,
                    pure, Except.pure] using h
                intro r hr; exact this ▸ hr

/-- C5: idempotent attachment.  Observing an unattached list (no
attachment flag, rows without handles and with their wrap element)
attaches it: the saved order is applied exactly once (the application
counter increments by one) and every row ends up with exactly one handle;
observing the resulting list again returns it unchanged — no second
saved-order application and no duplicate handles. -/
theorem attach_idempotent (stored : Option Stored) (s0 s1 : ListState)
    (ha : s0.sortAttach = false)
    (hrows : ∀ r ∈ s0.rows,
      r.hasHandle = false ∧ r.handleCount = 0 ∧ r.hasWrap = true)
    (h : observe stored s0 = Except.ok s1) :
    observe stored s1 = Except.ok s1 ∧
    s1.applyCount = s0.applyCount + 1 ∧
    ∀ r ∈ s1.rows, r.handleCount = 1 := by
  rw [observe, if_neg (by simp [ha])] at h
  cases happ : applySaved stored s0.rows with
  | error err => rw [happ] at h; simp [Bind.bind, Except.bind] at h
  | ok rows' =>
      rw [happ] at h
      have hs1 : s1 =
          { sortAttach := true, rows := rows'.map grip,
            applyCount := s0.applyCount + 1 } := by
        have := h.symm
        simpa [Bind.bind, Except.bind, pure, Except.pure] using this
      subst hs1
      refine ⟨by rw [observe, if_pos rfl], rfl, ?_⟩
      intro r hr
      obtain ⟨r0, hr0, rfl⟩ := List.mem_map.mp hr
      have h0 := hrows r0 (applySaved_subset stored s0.rows rows' happ r0 hr0)
      rw [grip, if_neg (by simp [h0.1])]
      simp [h0.2.1, h0.2.2]

/-- C5 witness: observing a concrete one-row unattached list twice —
the second observation is the identity, the saved order ran once, the row
has exactly one handle. -/
theorem attach_idempotent_witness :
    observe none
        { sortAttach := true,
          rows := [{id := 0, name := some "A", hasHandle := true,
                    handleCount := 1}],
          applyCount := 1 } =
      Except.ok
        { sortAttach := true,
          rows := [{id := 0, name := some "A", hasHandle := true,
                    handleCount := 1}],
          applyCount := 1 } ∧
    (1 : Nat) = 0 + 1 ∧
    ∀ r ∈ [({id := 0, name := some "A", hasHandle := true,
             handleCount := 1} : Row)], r.handleCount = 1 :=
  attach_idempotent none
    { sortAttach := false, rows := [{id := 0, name := some "A"}],
      applyCount := 0 }
    { sortAttach := true,
      rows := [{id := 0, name := some "A", hasHandle := true,
                handleCount := 1}],
      applyCount := 1 }
    rfl (by decide) (by rfl)

theorem removeRowId_append (l1 l2 : List Node) (rid : Nat) :
    removeRowId (l1 ++ l2) rid =
      removeRowId l1 rid ++ removeRowId l2 rid := by
  simp [removeRowId]

theorem removeRowId_cons_ph (l : List Node) (rid : Nat) :
    removeRowId (Node.ph :: l) rid = Node.ph :: removeRowId l rid := by
  simp [removeRowId, List.filter_cons]

theorem phFree_removeRowId (l : List Node) (rid : Nat)
    (h : phFree l = true) : phFree (removeRowId l rid) = true := by
  rw [phFree, List.all_eq_true]
  intro n hn
  exact List.all_eq_true.mp h n (List.mem_of_mem_filter hn)

theorem replacePh_phFree (l : List Node) (r : Row)
    (h : phFree l = true) : replacePh l r = l := by
  induction l with
  | nil => rfl
  | cons n rest ih =>
      rw [phFree, List.all_cons, Bool.and_eq_true] at h
      have hn : n.isPh = false := by
        cases hb : n.isPh
        · rfl
        · rw [hb] at h; simp at h
      rw [replacePh, List.map_cons, if_neg (by simp [hn])]
      have hrest := ih (by rw [phFree]; exact h.2)
      rw [replacePh] at hrest
      rw [hrest]

theorem replacePh_append (l1 l2 : List Node) (r : Row) :
    replacePh (l1 ++ l2) r = replacePh l1 r ++ replacePh l2 r := by
  simp [replacePh]

theorem replacePh_cons_ph (l : List Node) (r : Row) :
    replacePh (Node.ph :: l) r = Node.row r :: replacePh l r := by
  simp [replacePh, Node.isPh]

/-- C8 counterexample: after a full pointer-down / pointer-up cycle the
dragged row still carries the inline `z-index: 999` set at drag start —
`#up` clears `position`, `left`, `top`, `width` and `pointerEvents` but
not `zIndex`, so "every inline style set on the row at drag start is
cleared" is false. -/
theorem up_zindex_cex :
    ((getRow (upHandler (downHandler {x := 0, y := 0} 0
            { children :=
                [Node.row {id := 0, name := some "A", height := 10}],
              scrollTop := 0, stored := none, handlers := false,
              drag := none })).children 0).map (fun r => r.style.zIndex))
      = some (some 999) ∧
    (some (some (999 : Int)) : Option (Option Int)) ≠ some none := by
  exact ⟨rfl, by decide⟩

/-- C8 (amended): on pointer-up during a drag session (one placeholder in
the list, the dragged row present), the dragged row replaces the
placeholder at the placeholder's position (its old occurrence is
removed); the dragging class and the inline `position`, `left`, `top`,
`width` and `pointer-events` styles set at drag start are cleared (the
inline `z-index` is not, which is inert once the position is static); the
new order is computed by reading the resulting rows top-to-bottom,
dropping rows with no (truthy) name, and overwrites the stored Saved
Order; the global move/up handlers are removed and the session is
cleared. -/
theorem up_final (s : WState) (d : DragInfo) (row : Row) (u v : List Node)
    (hd : s.drag = some d)
    (hrow : getRow s.children d.rowId = some row)
    (hsplit : s.children = u ++ Node.ph :: v)
    (hu : phFree u = true) (hv : phFree v = true) :
    (upHandler s).children =
      removeRowId u d.rowId ++ Node.row (clearDrag row) ::
        removeRowId v d.rowId ∧
    (clearDrag row).style.position = none ∧
    (clearDrag row).style.left = none ∧
    (clearDrag row).style.top = none ∧
    (clearDrag row).style.width = none ∧
    (clearDrag row).style.pointerEvents = none ∧
    (clearDrag row).dragging = false ∧
    (upHandler s).stored =
      savedValue (saveOrder (rowsOf
        (removeRowId u d.rowId ++ Node.row (clearDrag row) ::
          removeRowId v d.rowId))) ∧
    (upHandler s).handlers = false ∧
    (upHandler s).drag = none := by
  have hch :
      replacePh (removeRowId s.children d.rowId) (clearDrag row) =
        removeRowId u d.rowId ++ Node.row (clearDrag row) ::
          removeRowId v d.rowId := by
    rw [hsplit, removeRowId_append, removeRowId_cons_ph, replacePh_append,
      replacePh_cons_ph]
    rw [replacePh_phFree _ _ (phFree_removeRowId u d.rowId hu),
      replacePh_phFree _ _ (phFree_removeRowId v d.rowId hv)]
  refine ⟨?_, rfl, rfl, rfl, rfl, rfl, rfl, ?_, ?_, ?_⟩
  · simp only [upHandler, hd, hrow]
    exact hch
  · simp only [upHandler, hd, hrow]
    rw [hch]
  · simp only [upHandler, hd, hrow]
  · simp only [upHandler, hd, hrow]

/-- C8 witness: the pointer-up law evaluated on a concrete one-row drag
session — the cleared row replaces the placeholder and the handlers and
session are dropped. -/
theorem up_final_witness :
    (upHandler
          { children :=
              [Node.ph,
               Node.row
                 { id := 0, name := some "A", height := 10,
                   dragging := true,
                   style :=
                     { position := some "fixed", left := some 0,
                       top := some 0, width := some 0,
                       pointerEvents := some "none", zIndex := some 999 } }],
            scrollTop := 0, stored := none, handlers := true,
            drag := some {rowId := 0, offX := 0, offY := 0, edge := 40} }).children
        =
      [Node.row (clearDrag
        { id := 0, name := some "A", height := 10, dragging := true,
          style :=
            { position := some "fixed", left := some 0, top := some 0,
              width := some 0, pointerEvents := some "none",
              zIndex := some 999 } })] ∧
    (upHandler
          { children :=
              [Node.ph,
               Node.row
                 { id := 0, name := some "A", height := 10,
                   dragging := true,
                   style :=
                     { position := some "fixed", left := some 0,
                       top := some 0, width := some 0,
                       pointerEvents := some "none", zIndex := some 999 } }],
            scrollTop := 0, stored := none, handlers := true,
            drag := some {rowId := 0, offX := 0, offY := 0, edge := 40} }).handlers
        = false := by
  have h := up_final
    { children :=
        [Node.ph,
         Node.row
           { id := 0, name := some "A", height := 10, dragging := true,
             style :=
               { position := some "fixed", left := some 0, top := some 0,
                 width := some 0, pointerEvents := some "none",
                 zIndex := some 999 } }],
      scrollTop := 0, stored := none, handlers := true,
      drag := some {rowId := 0, offX := 0, offY := 0, edge := 40} }
    {rowId := 0, offX := 0, offY := 0, edge := 40}
    { id := 0, name := some "A", height := 10, dragging := true,
      style :=
        { position := some "fixed", left := some 0, top := some 0,
          width := some 0, pointerEvents := some "none",
          zIndex := some 999 } }
    []
    [Node.row
      { id := 0, name := some "A", height := 10, dragging := true,
        style :=
          { position := some "fixed", left := some 0, top := some 0,
            width := some 0, pointerEvents := some "none",
            zIndex := some 999 } }]
    rfl rfl rfl rfl rfl
  exact ⟨h.1, h.2.2.2.2.2.2.2.2.1⟩
